import Mathlib

/-!
Shallow embedding of the `sca` ("simple cpp algorithm") collection-algorithm
toolkit from `src/inc/scalgorithm.hpp`, `src/inc/algorithm.hpp` and
`src/inc/detail/algorithm.hpp`, together with theorems settling the frozen
claims C1..C10 about it.

Containers of element type `int` are embedded as `List Int` (the element
sequence observed by iterating a forward cursor from `begin()` to `end()`).
Iterator loops in the C++ source become structural recursions that advance
one position per step.  Compile-time SFINAE capability probes become `Bool`
values recording what the probe resolves to for the concrete C++ type under
discussion.  Dereferencing an iterator that has run past `end()` is undefined
behavior in C++; the embedding totalizes it with `List.getD`/`List.headI`
(default `0`), and theorems about multi-sequence algorithms carry the length
side conditions under which that default is never consulted.
-/

namespace sca

namespace detail

/-! ## size (scalgorithm.hpp lines 86-104, detail/algorithm.hpp lines 148-176)

`detail::size(c, std::false_type)` computes the size "the *slow* way by
iterating through it": a counter starts at zero and is incremented once per
cursor advance until the cursor reaches `end()`.  `distanceLoop cnt l` is that
loop with counter `cnt` and remaining range `l`. -/

def distanceLoop (cnt : Nat) : List Int → Nat
  | [] => cnt
  | _ :: rest => distanceLoop (cnt + 1) rest

/-- A concrete sequence value as the `size` dispatch sees it: the elements the
cursors traverse, what the `size()` member returns (when the type has one),
and the compile-time answer of the `has_size` probe for the type. -/
structure Container where
  elems : List Int
  sizeResult : Nat
  hasSizeMember : Bool

/-- Embeds `detail::size(c, std::true_type)`: call the `size()` member directly. -/
def sizeDirect (c : Container) : Nat := c.sizeResult

/-- Embeds `detail::size(c, std::false_type)`: advance a cursor from `begin()` to
`end()` counting advances. -/
def sizeIterate (c : Container) : Nat := distanceLoop 0 c.elems

end detail

/-- Embeds `sca::size` (scalgorithm.hpp lines 293-297): dispatch on
`detail::has_size<C>::has` between the direct member call and the counting
loop. -/
def size (c : detail.Container) : Nat :=
  if c.hasSizeMember then detail.sizeDirect c else detail.sizeIterate c

namespace detail

/-! ## some (scalgorithm.hpp lines 266-281)

`detail::some(f, it, it_end, its...)` starts with `ret = false` and loops
while the primary cursor has not reached `it_end`, invoking `f` on the current
element group once per iteration, returning `true` at the first success.  The
secondary sequences are embedded homogeneously as a list of sequences; the
model returns both the boolean result and the number of times `f` was
invoked. -/

def someLoop (f : Int → List Int → Bool) : List Int → List (List Int) → Bool × Nat
  | [], _ => (false, 0)
  | a :: as, ss =>
      if f a (ss.map List.headI) then (true, 1)
      else
        let r := someLoop f as (ss.map List.tail)
        (r.1, r.2 + 1)

/-! ## map (scalgorithm.hpp lines 209-215, 629-635)

`detail::map(f, rit, it, it_end, its...)` loops while the primary cursor `it`
has not reached `it_end`: it writes `f(*it, *its...)` through the result
cursor and advances every cursor once (`advance_group`).  The heterogeneous
variadic pack of secondary sequences is embedded homogeneously as a
`List (List Int)`, the callable receiving the primary element and the list of
secondary elements at the current position; advancing all secondary cursors
is `List.tail` applied to each.

Only this detail engine is embedded.  The wrapper `sca::map` (scalgorithm.hpp
lines 629-635) allocates the result buffer pre-sized to `sca::size(c)` but
then calls `detail::map(ret.begin(), c.begin(), c.end(), cs.begin()...)`
without passing the callable `f`, binding the result iterator as the
callable (the wrapper in algorithm.hpp line 530 drops `f` the same way);
every instantiation of that call is ill-formed — an iterator is not
invocable — so the wrapper has no executable behavior to embed. -/

def mapLoop (f : Int → List Int → Int) : List Int → List (List Int) → List Int
  | [], _ => []
  | a :: as, ss => f a (ss.map List.headI) :: mapLoop f as (ss.map List.tail)

/-! ## fold (scalgorithm.hpp lines 219-233, 660-664)

`detail::fold(f, init, it, it_end, its...)` copies `init` into
`mutable_state`, then, while the primary cursor has not reached `it_end`,
replaces the state by `f(state, *it, *its...)` and advances every cursor. -/

def foldLoop (f : Int → Int → List Int → Int) (state : Int) :
    List Int → List (List Int) → Int
  | [], _ => state
  | a :: as, ss => foldLoop f (f state a (ss.map List.headI)) as (ss.map List.tail)

end detail

/-- Embeds `sca::fold` (scalgorithm.hpp lines 660-664): run the detail loop from the
containers' `begin()` cursors with the caller's initial value. -/
def fold (f : Int → Int → List Int → Int) (init : Int) (c : List Int)
    (cs : List (List Int)) : Int :=
  detail.foldLoop f init c cs

/-- Embeds `sca::some` (scalgorithm.hpp lines 728-732): run the detail loop from the
primary container's `begin()`/`end()` and the secondaries' `begin()`. -/
def some (f : Int → List Int → Bool) (c : List Int) (cs : List (List Int)) : Bool :=
  (detail.someLoop f c cs).1

/-! ## pointers / values (scalgorithm.hpp lines 321-337, 355-363, 142-162)

The address of the `i`-th element of a container is embedded as the index `i`
into that container's element list; a container of pointers is then a
`List Nat` and dereferencing reads the pointed-to store at that index. -/

/-- Embeds `sca::pointers` (scalgorithm.hpp lines 321-337): `std::transform` writes
the address of each element, in order, into a result collection pre-sized to
`sca::size(c)`; with addresses embedded as indices this yields `[0, ..., n-1]`
and copies no element value. -/
def pointers (c : List Int) : List Nat := List.range c.length

namespace detail

/-- Embeds `detail::values(std::true_type, out, cur, end)` (scalgorithm.hpp lines
142-151): while the input cursor has not reached `end`, write `**cur`
(dereference the pointer, then deep-copy the value) to the output cursor and
advance both. -/
def valuesDeref (store : List Int) : List Nat → List Int
  | [] => []
  | p :: rest => store.getD p 0 :: valuesDeref store rest

end detail

/-- Embeds `sca::values` applied to a container of pointers (scalgorithm.hpp lines
355-363): the element type is a pointer, so `std::is_pointer` selects the
dereferencing branch of `detail::values`. -/
def values (store : List Int) (ps : List Nat) : List Int :=
  detail.valuesDeref store ps

/-! ## filter (scalgorithm.hpp lines 593-608)

`sca::filter(f, c)` allocates `ret` pre-sized to `sca::size(c)` (a vector of
`size(c)` value-initialized elements), keeps a write counter `cur = 0`, and
for each element `e` of `c` in increasing order tests `f(e)`; on success it
transfers `e` into slot `ret[cur]` and increments `cur`.  Finally
`ret.resize(cur)` shrinks the buffer to the count actually written.  In value
terms the copy and move branches of `detail::transfer` both leave the
source's value in the destination slot. -/

def filterGo (f : Int → Bool) : List Int → List Int → Nat → List Int × Nat
  | [], ret, cur => (ret, cur)
  | e :: es, ret, cur =>
      if f e then filterGo f es (ret.set cur e) (cur + 1)
      else filterGo f es ret cur

/-- Embeds `sca::filter`: run the loop over the pre-sized buffer, then shrink the
buffer to the number of slots written (`resize` downward keeps the first
`cur` elements). -/
def filter (f : Int → Bool) (c : List Int) : List Int :=
  let p := filterGo f c (List.replicate c.length 0) 0
  p.1.take p.2

/-! ## slice (scalgorithm.hpp lines 370-416, 481-498)

`sca::slice(c, idx, len)` constructs a `slice_of` whose `m_size` is `len`,
whose `m_begin` is `std::next(c.begin(), idx)` and whose `m_end` is
`std::next(m_begin, len)`.  Iterator positions are embedded as offsets from
`c.begin()`; `mem` is the element list of the container the cursors point
into (the referenced lvalue container, or the adopted storage for the rvalue
constructor — either way the same element list). -/

structure slice_of where
  mem : List Int
  m_size : Nat
  m_begin : Nat
  m_end : Nat
deriving DecidableEq

/-- the `slice_of` mutable-lvalue constructor (scalgorithm.hpp lines 382-386):
`m_size = len`, `m_begin = next(begin, idx)`, `m_end = next(m_begin, len)`
(the rvalue constructor at lines 389-394 produces the same offsets into the
adopted storage). -/
def slice (c : List Int) (idx len : Nat) : slice_of :=
  ⟨c, len, idx, idx + len⟩

/-- Embeds `slice_of::size` (scalgorithm.hpp lines 397-399): return `m_size`. -/
def slice_of.size (s : slice_of) : Nat := s.m_size

/-- reading a cursor range: dereference and advance, `n` times (with
`n = m_end - m_begin` this is the loop `for(it = begin(); it != end(); ++it)`
over the view). -/
def readRange (c : List Int) (pos : Nat) : Nat → List Int
  | 0 => []
  | n + 1 => c.getD pos 0 :: readRange c (pos + 1) n

/-- iterating the view from its `begin()` cursor to its `end()` cursor. -/
def slice_of.iterate (s : slice_of) : List Int :=
  readRange s.mem s.m_begin (s.m_end - s.m_begin)

/-! ## transfer engine (scalgorithm.hpp lines 109-137) and its clients

To observe move-vs-copy effects, an element is embedded with an explicit
moved-from flag: `MV.val` is the stored value and `MV.moved` records whether
the object has been moved from (its value then unspecified, embedded as `0`).
`detail::transfer`/`detail::range_transfer` receive `is_lvalue_ref_t<C>` —
`true_type` when the whole source sequence was passed as a persistent
(lvalue) binding — computed once per algorithm invocation; the single `isLval`
argument of each model below is that per-invocation choice. -/

structure MV where
  val : Int
  moved : Bool
deriving DecidableEq

namespace detail

/-- Embeds `detail::transfer` (scalgorithm.hpp lines 109-118): produce the assigned
destination and the source as the call leaves it; the `std::true_type`
(persistent) branch copy-assigns and leaves the source untouched, the
`std::false_type` branch assigns from `std::move(src)` and leaves the source
moved-from. -/
def transfer (isLval : Bool) (src : MV) : MV × MV :=
  if isLval then (src, src) else (⟨src.val, false⟩, ⟨0, true⟩)

/-- Embeds `detail::range_transfer` (scalgorithm.hpp lines 125-137): transfer one
element at a time, advancing source and destination cursors together; returns
the written destination range and the source range as the loop leaves it. -/
def range_transfer (isLval : Bool) : List MV → List MV × List MV
  | [] => ([], [])
  | s :: rest =>
      let t := transfer isLval s
      let r := range_transfer isLval rest
      (t.1 :: r.1, t.2 :: r.2)

end detail

/-- Embeds `sca::filter` element effects (scalgorithm.hpp lines 593-608): each
element passing the predicate goes through `detail::transfer` with the
invocation's single `is_lvalue_ref_t<C>` flag; elements failing it are not
touched.  Returns (result collection, source after the call). -/
def filterT (isLval : Bool) (f : Int → Bool) : List MV → List MV × List MV
  | [] => ([], [])
  | e :: es =>
      let r := filterT isLval f es
      if f e.val then
        let t := detail.transfer isLval e
        (t.1 :: r.1, t.2 :: r.2)
      else (r.1, e :: r.2)

/-- Embeds `sca::reverse` (scalgorithm.hpp lines 557-564): `range_transfer` the whole
source into the pre-sized buffer, then `std::reverse` the buffer in place
(which never touches the source). -/
def reverseT (isLval : Bool) (c : List MV) : List MV × List MV :=
  let r := detail.range_transfer isLval c
  (r.1.reverse, r.2)

/-- Embeds `sca::sort` (scalgorithm.hpp lines 575-582): `range_transfer` the whole
source into the pre-sized buffer, then `std::sort` the buffer in place with
the caller's comparator (embedded as a sort of the transferred list; the
in-place sort permutes only the result buffer and never touches the
source). -/
def sortT (isLval : Bool) (cmp : MV → MV → Bool) (c : List MV) : List MV × List MV :=
  let r := detail.range_transfer isLval c
  (r.1.mergeSort cmp, r.2)

/-- Embeds `sca::group` source effects (scalgorithm.hpp lines 541-547, 180-188):
`detail::group` runs `range_transfer` over each argument container in turn;
for sources all passed as persistent bindings the flag is `true` for each. -/
def groupT (isLval : Bool) : List (List MV) → List MV × List (List MV)
  | [] => ([], [])
  | c :: cs =>
      let r := detail.range_transfer isLval c
      let rest := groupT isLval cs
      (r.1 ++ rest.1, r.2 :: rest.2)

/-- Embeds `sca::values` element effects (scalgorithm.hpp lines 142-162, 355-363):
both branches of `detail::values` copy (`*out = *cur`, never `std::move`),
so the source is returned unchanged by construction of the loop. -/
def valuesT : List MV → List MV × List MV
  | [] => ([], [])
  | e :: es =>
      let r := valuesT es
      (e :: r.1, e :: r.2)

/-! ## resize (algorithm.hpp lines 120-124, detail/algorithm.hpp lines 181-197)

`detail::algorithm::has_resize` probes with the pattern
`template<typename U, void (U::*)(U::size_type) const> struct SFINAE` and
`test(SFINAE<U, &U::resize>*)`: taking `&U::resize` at that parameter type
succeeds only when the type declares a **const-qualified** member
`void resize(size_type) const`.  The defs below record the relevant C++
declaration facts for the concrete type `std::vector<int>` and the behavior
of the two dispatch branches on it. -/

/-- Embeds `std::vector<int>` declares a member `void resize(size_type)`. -/
def vectorDeclaresResize : Bool := true

/-- that member is not const-qualified (`resize` mutates the vector). -/
def vectorResizeIsConst : Bool := false

namespace detail

/-- Embeds `detail::algorithm::has_resize<std::vector<int>>::has` (detail/algorithm.hpp
lines 181-187): true exactly when the type declares a const-qualified
`resize(size_type)` member matching the SFINAE pattern. -/
def has_resize_vector : Bool := sca.vectorDeclaresResize && sca.vectorResizeIsConst

/-- the `std::true_type` branch of `detail::algorithm::resize` (lines
189-192): call the member `c.resize(n)`; for `std::vector<int>` this keeps
the first `n` existing elements and value-initializes any newly created
ones. -/
def member_resize (l : List Int) (n : Nat) : List Int :=
  l.take n ++ List.replicate (n - l.length) 0

/-- the `std::false_type` branch (lines 194-197): `c = C(new_size)` — build a
fresh container through the size-parameterized constructor (for
`std::vector<int>`, `n` value-initialized elements) and assign it, replacing
(not merging) the previous contents. -/
def reconstruct_resize (n : Nat) : List Int := List.replicate n 0

end detail

/-- Embeds `sca::resize` (algorithm.hpp lines 120-124) applied to a
`std::vector<int>`: dispatch on `has_resize<C>::has`. -/
def resizeVec (l : List Int) (n : Nat) : List Int :=
  if detail.has_resize_vector then detail.member_resize l n
  else detail.reconstruct_resize n

/-! ## split (algorithm.hpp lines 428-447, detail/algorithm.hpp lines 268-280)

`sca::split(c, part1len, partlens...)` computes
`detail::algorithm::sum(part1len, partlens...)` and partitions only under the
guard `size(c) > sum(...)`, otherwise returning an empty
`std::optional`.  When it partitions, it builds the optional's container with
`1 + sizeof...(partlens)` default-constructed partitions and runs
`detail::algorithm::split`, which for each requested length `len` resizes the
current partition to `len` and then runs `range_copy_or_move` from the source
cursor to the source **end** (the whole remaining range — the drafted body,
a non-compiling fragment in the source, is embedded at its literal reading:
in-bounds writes land in the partition, whose size stays `len`, and the
source cursor is left at the end, so every later partition receives no
elements and keeps its value-initialized contents). -/

namespace detail

/-- Embeds `detail::algorithm::sum` (detail/algorithm.hpp lines 243-251): left-fold
the lengths into the running sum. -/
def sumAcc : Nat → List Nat → Nat
  | acc, [] => acc
  | acc, v :: vs => sumAcc (acc + v) vs

/-- the effect of `range_copy_or_move(dst.begin(), src_cur, src_end)` on a
destination buffer `dst`: source values overwrite destination slots position
by position; writes past `dst`'s end are out of bounds and do not change its
size. -/
def bufferWrite (dst src : List Int) : List Int :=
  src.take dst.length ++ dst.drop src.length

/-- Embeds `detail::algorithm::split` (detail/algorithm.hpp lines 271-280): resize
the current partition to `len`, copy from the source cursor to the source
end (advancing the source cursor to the end), recurse on the remaining
lengths. -/
def splitLoop : List Int → List Nat → List (List Int)
  | _, [] => []
  | src, len :: lens =>
      bufferWrite (List.replicate len 0) src :: splitLoop (src.drop src.length) lens

end detail

/-- Embeds `sca::split` (algorithm.hpp lines 428-447): partition only when
`size(c) > sum(part1len, partlens...)`, else return the empty optional. -/
def split (c : List Int) (part1len : Nat) (partlens : List Nat) :
    Option (List (List Int)) :=
  if detail.sumAcc part1len partlens < c.length then
    Option.some (detail.splitLoop c (part1len :: partlens))
  else
    Option.none

end sca

/-! ## Supporting lemmas -/

lemma sca.detail.distanceLoop_eq (l : List Int) :
    ∀ cnt : Nat, sca.detail.distanceLoop cnt l = cnt + l.length := by
  induction l with
  | nil => intro cnt; simp [sca.detail.distanceLoop]
  | cons a rest ih =>
      intro cnt
      simp [sca.detail.distanceLoop, ih, Nat.add_comm, Nat.add_assoc,
        Nat.add_left_comm]

lemma sca.detail.valuesDeref_eq_map (store : List Int) (ps : List Nat) :
    sca.detail.valuesDeref store ps = ps.map (fun p => store.getD p 0) := by
  induction ps with
  | nil => rfl
  | cons p rest ih => simp [sca.detail.valuesDeref, ih]

lemma headI_eq_getD (s : List Int) : s.headI = s.getD 0 0 := by
  cases s <;> rfl

lemma tail_getD (s : List Int) (i : Nat) : s.tail.getD i 0 = s.getD (i + 1) 0 := by
  cases s <;> simp [List.getD]

lemma sca.detail.mapLoop_length (f : Int → List Int → Int) :
    ∀ (c : List Int) (ss : List (List Int)), (sca.detail.mapLoop f c ss).length = c.length := by
  intro c
  induction c with
  | nil => intro ss; rfl
  | cons a as ih => intro ss; simp [sca.detail.mapLoop, ih]

lemma sca.detail.mapLoop_getD (f : Int → List Int → Int) :
    ∀ (c : List Int) (ss : List (List Int)) (i : Nat), i < c.length →
      (sca.detail.mapLoop f c ss).getD i 0 =
        f (c.getD i 0) (ss.map (fun s => s.getD i 0)) := by
  intro c
  induction c with
  | nil => intro ss i hi; simp at hi
  | cons a as ih =>
      intro ss i hi
      cases i with
      | zero =>
          simp only [sca.detail.mapLoop, List.getD_cons_zero]
          congr 1
          exact List.map_congr_left fun s _ => headI_eq_getD s
      | succ i =>
          simp only [sca.detail.mapLoop, List.getD_cons_succ]
          rw [ih (ss.map List.tail) i (by simpa using hi)]
          congr 1
          rw [List.map_map]
          exact List.map_congr_left fun s _ => tail_getD s i

/-- The claim's reference computation for `fold`: thread the accumulator by
manual index iteration, visiting the indices `0, 1, ..., length(c) - 1`
strictly in increasing order. -/
def sca.manualFold (f : Int → Int → List Int → Int) (init : Int) (c : List Int)
    (ss : List (List Int)) : Int :=
  (List.range c.length).foldl
    (fun acc i => f acc (c.getD i 0) (ss.map (fun s => s.getD i 0))) init

lemma sca.detail.foldLoop_eq_manual (f : Int → Int → List Int → Int) :
    ∀ (c : List Int) (ss : List (List Int)) (state : Int),
      sca.detail.foldLoop f state c ss = sca.manualFold f state c ss := by
  intro c
  induction c with
  | nil => intro ss state; rfl
  | cons a as ih =>
      intro ss state
      rw [sca.detail.foldLoop, ih]
      unfold sca.manualFold
      rw [List.length_cons, List.range_succ_eq_map, List.foldl_cons, List.foldl_map]
      congr 1
      · funext acc i
        simp only [List.getD_cons_succ, List.map_map]
        congr 1
        exact List.map_congr_left fun s _ => tail_getD s i
      · simp only [List.getD_cons_zero]
        congr 1
        exact List.map_congr_left fun s _ => headI_eq_getD s

/-! ## Claims -/

/-- C3: `size(c)` returns the count of `c`'s elements, and the two dispatch
paths agree: assuming the C++ container contract that the `size()` member
reports the number of elements the cursors traverse, the direct path and the
cursor-counting path return the same semantic answer, and `sca::size` returns
that count whichever way the `has_size` probe resolves. -/
theorem size_paths_agree (c : sca.detail.Container)
    (hmember : c.sizeResult = c.elems.length) :
    sca.detail.sizeDirect c = sca.detail.sizeIterate c ∧
      sca.size c = c.elems.length := by
  have hiter : sca.detail.sizeIterate c = c.elems.length := by
    simp [sca.detail.sizeIterate, sca.detail.distanceLoop_eq]
  refine ⟨by simp [sca.detail.sizeDirect, hiter, hmember], ?_⟩
  by_cases hc : c.hasSizeMember <;>
    simp [sca.size, hc, sca.detail.sizeDirect, hmember, hiter]

/-- Witness for C3 at the concrete container `[1,2,3]` (whose `size()` member
reports 3, as for `std::vector<int>{1,2,3}`). -/
theorem size_paths_agree_witness :
    sca.detail.sizeDirect ⟨[1, 2, 3], 3, true⟩ =
        sca.detail.sizeIterate ⟨[1, 2, 3], 3, true⟩ ∧
      sca.size ⟨[1, 2, 3], 3, true⟩ = 3 :=
  size_paths_agree ⟨[1, 2, 3], 3, true⟩ (by decide)

/-- C10: when the primary sequence is empty, `some` returns `false` and the
predicate is invoked zero times, for every predicate and all secondary
sequences. -/
theorem some_empty_primary (f : Int → List Int → Bool) (cs : List (List Int)) :
    sca.some f [] cs = false ∧ (sca.detail.someLoop f [] cs).2 = 0 := by
  constructor <;> rfl

/-- The claim's example callable `sum3(a, b, c) = a + b + c`, receiving the
primary element and the list of secondary elements at the current index. -/
def sum3 (a : Int) (rest : List Int) : Int := a + rest.getD 0 0 + rest.getD 1 0

/-- C2: evaluation at the failing input.  The `detail::map` engine
(scalgorithm.hpp lines 209-215), given the callable as the claim requires,
produces exactly the claimed result
`map(sum3, [1,2,3], [4,5,6], [7,8,9]) = [12,15,18]` with length equal to the
primary's; but the wrapper `sca::map` (scalgorithm.hpp line 633, likewise
algorithm.hpp line 530) omits `f` from the `detail::map` call, binding the
result iterator as the callable, so every instantiation is ill-formed, `f` is
never invoked at any index, and the code as written cannot produce this
result — contradicting the wrapper's own doc comment ("containing the result
of every invocation of user function `f`"). -/
theorem map_wrapper_omits_callable :
    sca.detail.mapLoop sum3 [1, 2, 3] [[4, 5, 6], [7, 8, 9]] = [12, 15, 18] ∧
      (sca.detail.mapLoop sum3 [1, 2, 3] [[4, 5, 6], [7, 8, 9]]).length =
        ([1, 2, 3] : List Int).length := by
  decide

/-- C6: `fold(f, init, c, cs...)` threads the accumulator through the index
groups strictly in increasing order `0, 1, 2, ...`, starting from `init`,
visiting exactly `length(c)` index groups, and returns the final accumulator:
for every callable `f` (commutative or not) it equals the same computation
performed by manual index iteration, and the claim's example
`fold(sum, 0, [1,2,3], [4,5,6], [7,8,9])` returns `45`. -/
theorem fold_increasing_index_order (f : Int → Int → List Int → Int) (init : Int)
    (c : List Int) (cs : List (List Int)) :
    sca.fold f init c cs = sca.manualFold f init c cs ∧
      sca.fold (fun acc a rest => acc + a + rest.getD 0 0 + rest.getD 1 0) 0
        [1, 2, 3] [[4, 5, 6], [7, 8, 9]] = 45 := by
  exact ⟨sca.detail.foldLoop_eq_manual f c cs init, by decide⟩

/-- C9: the round-trip `values(pointers(seq))` returns a collection equal to
`seq` element-for-element, preserving order and length. -/
theorem values_pointers_roundtrip (c : List Int) :
    sca.values c (sca.pointers c) = c := by
  rw [sca.values, sca.detail.valuesDeref_eq_map, sca.pointers]
  apply List.ext_getElem
  · simp
  · intro i h1 h2
    simp [List.getD_eq_getElem?_getD, List.getElem?_eq_getElem h2]

lemma take_succ_set (e : Int) :
    ∀ (l : List Int) (i : Nat), i < l.length →
      (l.set i e).take (i + 1) = l.take i ++ [e] := by
  intro l
  induction l with
  | nil => intro i hi; simp at hi
  | cons a as ih =>
      intro i hi
      cases i with
      | zero => simp
      | succ i =>
          simp only [List.set_cons_succ, List.take_succ_cons, List.cons_append]
          rw [ih i (by simpa using hi)]

lemma sca.filterGo_spec (f : Int → Bool) :
    ∀ (c ret : List Int) (cur : Nat), cur + (c.filter f).length ≤ ret.length →
      (sca.filterGo f c ret cur).2 = cur + (c.filter f).length ∧
        (sca.filterGo f c ret cur).1.take (sca.filterGo f c ret cur).2 =
          ret.take cur ++ c.filter f := by
  intro c
  induction c with
  | nil => intro ret cur h; simp [sca.filterGo]
  | cons e es ih =>
      intro ret cur h
      by_cases hf : f e
      · rw [List.filter_cons_of_pos hf] at h ⊢
        have hcur : cur < ret.length := by simp at h; omega
        have hlen : (cur + 1) + (es.filter f).length ≤ (ret.set cur e).length := by
          simp at h ⊢; omega
        have hrec := ih (ret.set cur e) (cur + 1) hlen
        simp only [sca.filterGo, hf, if_true]
        refine ⟨by rw [hrec.1]; simp; omega, ?_⟩
        rw [hrec.2, take_succ_set e ret cur hcur]
        simp
      · rw [List.filter_cons_of_neg hf] at h ⊢
        simpa only [sca.filterGo, hf, if_false] using ih ret cur h

/-- C7: `filter(f, c)` returns exactly the elements of `c` satisfying `f`, in
their original relative order: the buffer pre-sized to `length(c)` and
populated in increasing element order, then shrunk to the count written,
equals `List.filter f c`, so the result's length is the number of elements of
`c` satisfying `f`. -/
theorem filter_stable_order_preserving (f : Int → Bool) (c : List Int) :
    sca.filter f c = c.filter f ∧ (sca.filter f c).length = c.countP f := by
  have h0 : (0 : Nat) + (c.filter f).length ≤ (List.replicate c.length (0 : Int)).length := by
    simpa using List.length_filter_le f c
  have hspec := sca.filterGo_spec f c (List.replicate c.length 0) 0 h0
  have hmain : sca.filter f c = c.filter f := by
    rw [sca.filter]
    simpa using hspec.2
  exact ⟨hmain, by rw [hmain, ← List.countP_eq_length_filter]⟩

lemma sca.readRange_eq (c : List Int) :
    ∀ (n i : Nat), i + n ≤ c.length →
      sca.readRange c i n = (c.drop i).take n := by
  intro n
  induction n with
  | zero => intro i _; simp [sca.readRange]
  | succ n ih =>
      intro i h
      have hi : i < c.length := by omega
      rw [sca.readRange, ih (i + 1) (by omega), List.drop_eq_getElem_cons hi,
        List.take_succ_cons]
      congr 1
      simp [List.getD_eq_getElem?_getD, List.getElem?_eq_getElem hi]

/-- C8: for every valid `(i, n)` with `i + n ≤ length(seq)`, the view
`slice(seq, i, n)` reports its own size as `n` (not the parent's length), and
iterating the view from its begin cursor to its end cursor yields exactly the
elements `seq[i..i+n)` (that is, `(seq.drop i).take n`) in order. -/
theorem slice_size_and_iteration (c : List Int) (i n : Nat)
    (h : i + n ≤ c.length) :
    (sca.slice c i n).size = n ∧
      (sca.slice c i n).iterate = (c.drop i).take n := by
  refine ⟨rfl, ?_⟩
  rw [sca.slice_of.iterate]
  show sca.readRange c i (i + n - i) = (c.drop i).take n
  rw [Nat.add_sub_cancel_left]
  exact sca.readRange_eq c n i h

/-- Witness for C8 at `seq = [1,2,3,4,5]`, `i = 1`, `n = 3`: the view reports
size 3 and iterates `[2,3,4]`. -/
theorem slice_size_and_iteration_witness :
    (sca.slice [1, 2, 3, 4, 5] 1 3).size = 3 ∧
      (sca.slice [1, 2, 3, 4, 5] 1 3).iterate = [2, 3, 4] := by
  have h := slice_size_and_iteration [1, 2, 3, 4, 5] 1 3 (by decide)
  exact ⟨h.1, h.2.trans (by decide)⟩

lemma sca.detail.range_transfer_lvalue (c : List sca.MV) :
    (sca.detail.range_transfer true c).2 = c := by
  induction c with
  | nil => rfl
  | cons s rest ih => simp [sca.detail.range_transfer, sca.detail.transfer, ih]

lemma sca.filterT_lvalue (f : Int → Bool) (c : List sca.MV) :
    (sca.filterT true f c).2 = c := by
  induction c with
  | nil => rfl
  | cons e es ih =>
      by_cases hf : f e.val <;>
        simp [sca.filterT, sca.detail.transfer, hf, ih]

lemma sca.groupT_lvalue (cs : List (List sca.MV)) :
    (sca.groupT true cs).2 = cs := by
  induction cs with
  | nil => rfl
  | cons c rest ih =>
      simp [sca.groupT, sca.detail.range_transfer_lvalue, ih]

lemma sca.valuesT_source (c : List sca.MV) : (sca.valuesT c).2 = c := by
  induction c with
  | nil => rfl
  | cons e es ih => simp [sca.valuesT, ih]

/-- C5: when the source sequence is passed to a transfer-based algorithm as a
persistent (lvalue) binding — `is_lvalue_ref_t<C>` resolving to `true` for the
whole invocation — every element of the source equals its pre-call value
after the algorithm returns: the transfer engine (single and range forms) and
the algorithms built on it (`filter`, `reverse`, `sort`, `group`, `values`)
copy and never move from a persistent source. -/
theorem persistent_source_unchanged (f : Int → Bool) (cmp : sca.MV → sca.MV → Bool)
    (e : sca.MV) (c : List sca.MV) (cs : List (List sca.MV)) :
    (sca.detail.transfer true e).2 = e ∧
      (sca.detail.range_transfer true c).2 = c ∧
      (sca.filterT true f c).2 = c ∧
      (sca.reverseT true c).2 = c ∧
      (sca.sortT true cmp c).2 = c ∧
      (sca.groupT true cs).2 = cs ∧
      (sca.valuesT c).2 = c := by
  refine ⟨rfl, sca.detail.range_transfer_lvalue c, sca.filterT_lvalue f c, ?_, ?_,
    sca.groupT_lvalue cs, sca.valuesT_source c⟩
  · show (sca.detail.range_transfer true c).2 = c
    exact sca.detail.range_transfer_lvalue c
  · show (sca.detail.range_transfer true c).2 = c
    exact sca.detail.range_transfer_lvalue c

lemma sca.detail.sumAcc_eq : ∀ (vs : List Nat) (acc : Nat),
    sca.detail.sumAcc acc vs = acc + vs.sum := by
  intro vs
  induction vs with
  | nil => intro acc; simp [sca.detail.sumAcc]
  | cons v rest ih =>
      intro acc
      simp [sca.detail.sumAcc, ih, Nat.add_assoc]

lemma sca.detail.splitLoop_lengths :
    ∀ (lens : List Nat) (src : List Int),
      (sca.detail.splitLoop src lens).map List.length = lens := by
  intro lens
  induction lens with
  | nil => intro src; rfl
  | cons len rest ih =>
      intro src
      simp only [sca.detail.splitLoop, List.map_cons, ih]
      congr 1
      simp [sca.detail.bufferWrite]
      omega

/-- C1 counterexample: for the nine-element sequence `[1..9]` and requested
lengths `(3,3,3)`, the sum of the requested lengths (9) does not exceed the
sequence length (9), yet `split` returns the absent result instead of the
three partitions the claim promises: its guard demands
`size(c) > sum(lengths)` strictly. -/
theorem split_claim_counterexample :
    3 + 3 + 3 ≤ ([1, 2, 3, 4, 5, 6, 7, 8, 9] : List Int).length ∧
      sca.split [1, 2, 3, 4, 5, 6, 7, 8, 9] 3 [3, 3] = Option.none := by
  decide

/-- C1 (amended): `split(seq, len1..lenk)` returns an absent/empty result
(never a partial result, never a crash) exactly when the sum of the requested
lengths is greater than or equal to `length(seq)` — in particular
`split(group(A,B,C), 3, 3, 3)` on the nine-element sequence is absent — and
otherwise returns a present result of exactly `k` partitions, each of its
requested length. -/
theorem split_amended (c : List Int) (len1 : Nat) (lens : List Nat) :
    (sca.split c len1 lens = Option.none ↔ c.length ≤ len1 + lens.sum) ∧
      ∀ ps, sca.split c len1 lens = Option.some ps →
        ps.length = 1 + lens.length ∧ ps.map List.length = len1 :: lens := by
  have hsum : sca.detail.sumAcc len1 lens = len1 + lens.sum :=
    sca.detail.sumAcc_eq lens len1
  constructor
  · unfold sca.split
    rw [hsum]
    by_cases h : len1 + lens.sum < c.length
    · simp only [h, if_true]
      constructor
      · intro hcontr; exact absurd hcontr (by simp)
      · intro hle; omega
    · simp only [h, if_false]
      constructor
      · intro _; omega
      · intro _; trivial
  · intro ps hps
    unfold sca.split at hps
    by_cases h : sca.detail.sumAcc len1 lens < c.length
    · rw [if_pos h] at hps
      have hps' : ps = sca.detail.splitLoop c (len1 :: lens) :=
        (Option.some.injEq _ _ ▸ hps).symm
      have hmap : ps.map List.length = len1 :: lens := by
        rw [hps']; exact sca.detail.splitLoop_lengths (len1 :: lens) c
      refine ⟨?_, hmap⟩
      have hlen := congrArg List.length hmap
      simp at hlen
      omega
    · rw [if_neg h] at hps
      exact absurd hps (by simp)

/-- Witness for C1 (amended) at `seq = [1..9]` and lengths `(2,3,3)` (sum 8,
strictly below 9): the result is present with exactly 3 partitions of the
requested lengths (the drafted body leaves only the first partition holding
source elements). -/
theorem split_amended_witness :
    sca.split [1, 2, 3, 4, 5, 6, 7, 8, 9] 2 [3, 3] =
        Option.some [[1, 2], [0, 0, 0], [0, 0, 0]] ∧
      ([[1, 2], [0, 0, 0], [0, 0, 0]] : List (List Int)).length = 3 ∧
      ([[1, 2], [0, 0, 0], [0, 0, 0]] : List (List Int)).map List.length =
        [2, 3, 3] := by
  have h := (split_amended [1, 2, 3, 4, 5, 6, 7, 8, 9] 2 [3, 3]).2
    [[1, 2], [0, 0, 0], [0, 0, 0]] (by decide)
  exact ⟨by decide, h.1.trans (by decide), h.2⟩

/-- C4: evaluation at the failing input `std::vector<int>{1,2,3}` resized to
5.  `std::vector<int>` declares `resize`, but the `has_resize` probe pattern
demands a const-qualified `void resize(size_type) const`, which the member is
not, so the probe resolves to `false` and `sca::resize` takes the
reconstruct-and-assign fallback: the result is `[0,0,0,0,0]` (size 5 but
previous contents destroyed) instead of the member call's `[1,2,3,0,0]`
promised by the claim and by the code's own doc comment ("call resize() if
member exists"). -/
theorem resize_vector_bypasses_member :
    sca.vectorDeclaresResize = true ∧
      sca.detail.has_resize_vector = false ∧
      sca.resizeVec [1, 2, 3] 5 = [0, 0, 0, 0, 0] ∧
      sca.detail.member_resize [1, 2, 3] 5 = [1, 2, 3, 0, 0] ∧
      sca.resizeVec [1, 2, 3] 5 ≠ sca.detail.member_resize [1, 2, 3] 5 ∧
      (sca.resizeVec [1, 2, 3] 5).length = 5 := by
  decide
